import Mathlib

/-!
Verification of the goatscrape crawl scheduler and its `BasicLinkStore`
frontier, as a shallow embedding of the Go source.

The embedding mirrors:
- `plugins` `BasicLinkStore` (`GetLinks`, `AddToCrawl`, `MoveToCrawled`,
  `MoreToCrawl`): slices become `List String`; the mutex is dropped and the
  methods are sequentialised, which is what the mutex guarantees anyway.
  `MoveToCrawled`'s delete loop mutates the slice while `range`-iterating
  over the original slice header; this is modelled exactly, including the
  stale tail element left in the backing array after each shift, and the
  out-of-range re-slice panic as `Option.none`.
- `crawl.go` `Spider`: `verifyURL`, `isPageDisallowed`, `getPage` and the
  round-based `crawlLoop`. The Go standard library pieces are modelled as
  oracles supplied in the configuration: `net/url.Parse` as
  `parseURL : String → Except String URL` (with `URL.IsAbs` testing a
  non-empty scheme, as `url.URL.IsAbs` does), the `Getter` as
  `getter : String → Except Unit ρ` over an abstract response type `ρ`,
  regular expressions in `DisallowedPages` as match predicates
  `String → Bool`, and `Parse` as `ρ → List String`.
- Goroutines of one round are sequentialised: each dispatched URL is moved
  to crawled in batch order (as the dispatch loop does), and afterwards each
  task's `AddToCrawl` calls are applied in batch order.  `wg.Done` calls,
  fetch starts and `AddToCrawl` calls of one task are recorded as an event
  trace.
-/

namespace Goatscrape

/-- The `BasicLinkStore` frontier: `crawled` (visited) and `toCrawl` (pending)
slices, in source field order. -/
structure BasicLinkStore where
  crawled : List String
  toCrawl : List String
deriving DecidableEq, Repr

/-- The loop body of `BasicLinkStore.GetLinks`: walk `toCrawl`, stop once
`counter > amount` (note: strictly greater, so up to `amount + 1` links are
taken), otherwise append the link and increment the counter. -/
def getLinksLoop (amount : Int) : Int → List String → List String
  | _, [] => []
  | counter, l :: rest =>
    if counter > amount then []
    else l :: getLinksLoop amount (counter + 1) rest

/-- `BasicLinkStore.GetLinks`: non-destructive read of the head of `toCrawl`,
controlled by `getLinksLoop` starting at counter `0`. -/
def BasicLinkStore.GetLinks (b : BasicLinkStore) (amount : Int) : List String :=
  getLinksLoop amount 0 b.toCrawl

/-- `BasicLinkStore.AddToCrawl`: return unchanged if the link occurs in
`toCrawl` or in `crawled`, otherwise append it to `toCrawl`. -/
def BasicLinkStore.AddToCrawl (b : BasicLinkStore) (link : String) : BasicLinkStore :=
  if b.toCrawl.any (fun l => link == l) then b
  else if b.crawled.any (fun l => link == l) then b
  else { b with toCrawl := b.toCrawl ++ [link] }

/-- State of the delete loop in `BasicLinkStore.MoveToCrawled`: the backing
array of the original `toCrawl` slice (its length never changes), the current
slice length after the in-place `append` shifts, and the `canContinue` flag. -/
structure MoveState where
  backing : List String
  curLen : Nat
  canContinue : Bool
deriving DecidableEq, Repr

/-- One iteration of the delete loop at index `i` of the original slice
header: read the backing array at `i`; on a match, re-slice
`append(toCrawl[:i], toCrawl[i+1:]...)`, which shifts elements `i+1 ..
curLen-1` left by one inside the backing array, leaves the element at
`curLen-1` behind as a stale copy, and shortens the slice by one.  When the
matching index is at or past the current length the re-slice `toCrawl[i+1:]`
is out of range and Go panics, modelled as `none`. -/
def moveStep (link : String) (i : Nat) (st : MoveState) : Option MoveState :=
  if st.backing.getD i "" == link then
    if i + 1 ≤ st.curLen then
      some { backing := st.backing.take i
                        ++ (st.backing.drop (i + 1)).take (st.curLen - 1 - i)
                        ++ st.backing.drop (st.curLen - 1),
             curLen := st.curLen - 1,
             canContinue := true }
    else none
  else some st

/-- Run the delete loop over a list of indices (the `range` clause iterates
`0, …, n-1` for the original slice length `n`). -/
def moveRun (link : String) : List Nat → MoveState → Option MoveState
  | [], st => some st
  | i :: rest, st =>
    match moveStep link i st with
    | none => none
    | some st' => moveRun link rest st'

/-- `BasicLinkStore.MoveToCrawled`: run the delete loop over the original
indices of `toCrawl`; afterwards `toCrawl` is the surviving slice, and the
link is appended to `crawled` only when `canContinue` was set (that is, only
when some occurrence was deleted).  `none` models the slice-bounds panic,
which is unreachable from duplicate-free states. -/
def BasicLinkStore.MoveToCrawled (b : BasicLinkStore) (link : String) :
    Option BasicLinkStore :=
  match moveRun link (List.range b.toCrawl.length) ⟨b.toCrawl, b.toCrawl.length, false⟩ with
  | none => none
  | some st =>
    some { toCrawl := st.backing.take st.curLen,
           crawled := if st.canContinue then b.crawled ++ [link] else b.crawled }

/-- `BasicLinkStore.MoreToCrawl`: true iff `toCrawl` is non-empty. -/
def BasicLinkStore.MoreToCrawl (b : BasicLinkStore) : Bool :=
  decide (b.toCrawl.length > 0)

/-- Model of `net/url.URL` restricted to the fields `crawl.go` reads:
`Scheme` and `Host`. -/
structure URL where
  scheme : String
  host : String
deriving DecidableEq, Repr

/-- `url.URL.IsAbs` (Go standard library): true iff the scheme is non-empty. -/
def URL.IsAbs (u : URL) : Bool := u.scheme != ""

/-- The `Spider` configuration fields that the crawl loop reads, after
`validateSettings` has derived the `has…` flags.  `ρ` is the abstract
`*http.Response` type; `parseURL`, `getter`, `parse` and the match
predicates in `disallowedPages` are the oracles standing for `net/url.Parse`,
the `Getter` (`RequestFunc`), the `Parse` function (`ParseFunc`) and the
compiled `regexp.Regexp` values. -/
structure SpiderCfg (ρ : Type) where
  allowedDomains : List String
  disallowedPages : List (String → Bool)
  maxPages : Int
  maxConcurrentRequests : Int
  hasMaxPages : Bool
  hasDisallowed : Bool
  hasParse : Bool
  parseURL : String → Except String URL
  getter : String → Except Unit ρ
  parse : ρ → List String

variable {ρ : Type}

/-- `Spider.verifyURL`: propagate a parse error; reject non-absolute URLs;
then scan `AllowedDomains` for an exact host match (the loop computes
`shouldContinue`) and reject when no match was found.  Note the scan runs
regardless of whether `AllowedDomains` is empty. -/
def verifyURL (cfg : SpiderCfg ρ) (uri : String) : Except String Unit :=
  match cfg.parseURL uri with
  | .error e => .error e
  | .ok u =>
    if !u.IsAbs then .error (uri ++ " not an absolute URL.")
    else
      let shouldContinue := cfg.allowedDomains.any (fun e => e == u.host)
      if !shouldContinue then .error (uri ++ " not listed as allowed in spider settings.")
      else .ok ()

/-- `Spider.isPageDisallowed`: accept when `hasDisallowed` is unset,
otherwise reject as soon as some disallow pattern matches the URI. -/
def isPageDisallowed (cfg : SpiderCfg ρ) (uri : String) : Except String Unit :=
  if !cfg.hasDisallowed then .ok ()
  else if cfg.disallowedPages.any (fun r => r uri) then .error (uri ++ " is disallowed.")
  else .ok ()

/-- Observable events of one `getPage` task: the deferred `wg.Done` call,
the start of the GET request issued to the `Getter`, and each `AddToCrawl`
call. -/
inductive CrawlEv where
  | wgDone
  | fetchStart (uri : String)
  | addToCrawl (link : String)
deriving DecidableEq, Repr

/-- The admission test `getPage` applies to each parsed candidate link:
`err1 := verifyURL(l)`, `err2 := isPageDisallowed(l)`, keep the link iff
both are nil. -/
def admitLink (cfg : SpiderCfg ρ) (l : String) : Bool :=
  match verifyURL cfg l, isPageDisallowed cfg l with
  | .ok _, .ok _ => true
  | _, _ => false

/-- Event trace of one `getPage` invocation (crawl.go).  The body:
`verifyURL` failure returns at once; otherwise the GET request is issued;
a `Getter` error returns; on success, when `hasParse` is set, every parsed
link passing `admitLink` is handed to `AddToCrawl` in order.  The deferred
`wg.Done` fires at every return, so every branch ends with `.wgDone`. -/
def getPageTrace (cfg : SpiderCfg ρ) (uri : String) : List CrawlEv :=
  match verifyURL cfg uri with
  | .error _ => [.wgDone]
  | .ok _ =>
    match cfg.getter uri with
    | .error _ => [.fetchStart uri, .wgDone]
    | .ok resp =>
      let adds := if cfg.hasParse
        then ((cfg.parse resp).filter (admitLink cfg)).map CrawlEv.addToCrawl
        else []
      .fetchStart uri :: (adds ++ [.wgDone])

/-- Links a trace hands to `AddToCrawl`, in order. -/
def tracedAdds (t : List CrawlEv) : List String :=
  t.filterMap fun e =>
    match e with
    | .addToCrawl l => some l
    | _ => none

/-- Whether a trace contains the start of a GET request. -/
def tracedFetch (t : List CrawlEv) : Bool :=
  t.any fun e =>
    match e with
    | .fetchStart _ => true
    | _ => false

/-- Number of `wg.Done` signals in a trace. -/
def doneCount (t : List CrawlEv) : Nat :=
  t.countP fun e =>
    match e with
    | .wgDone => true
    | _ => false

/-- Scheduler state of `crawlLoop`: the link store and the `totalSpidered`
counter. -/
structure RunState where
  links : BasicLinkStore
  totalSpidered : Int
deriving DecidableEq, Repr

/-- Outcome of one pass of the `for s.Links.MoreToCrawl()` loop body:
`halt` when the loop exits (no pending links, or the page budget is
reached), `panicked` when `MoveToCrawled` hits the slice-bounds panic,
otherwise `next` with the new state and the dispatched batch. -/
inductive StepRes where
  | halt
  | panicked
  | next (st : RunState) (dispatched : List String)
deriving DecidableEq, Repr

/-- The `amountToGet` computation of `crawlLoop`: start from
`MaxConcurrentRequests` and clamp to `MaxPages - totalSpidered` when the
budget is bounded and would be reached. -/
def amountForRound (cfg : SpiderCfg ρ) (st : RunState) : Int :=
  if cfg.hasMaxPages && decide (st.totalSpidered + cfg.maxConcurrentRequests ≥ cfg.maxPages)
  then cfg.maxPages - st.totalSpidered
  else cfg.maxConcurrentRequests

/-- `MoveToCrawled` applied to each dispatched URI in batch order, as the
dispatch loop does. -/
def moveAll (b : BasicLinkStore) : List String → Option BasicLinkStore
  | [] => some b
  | u :: rest =>
    match b.MoveToCrawled u with
    | none => none
    | some b' => moveAll b' rest

/-- `AddToCrawl` applied to each link in order. -/
def addAll (b : BasicLinkStore) (ls : List String) : BasicLinkStore :=
  ls.foldl BasicLinkStore.AddToCrawl b

/-- The `AddToCrawl` calls of all `getPage` tasks of one round, applied
task by task in batch order (one legal sequentialisation of the round's
goroutines). -/
def roundAdds (cfg : SpiderCfg ρ) (b : BasicLinkStore) (temp : List String) :
    BasicLinkStore :=
  temp.foldl (fun acc uri => addAll acc (tracedAdds (getPageTrace cfg uri))) b

/-- One pass of the `crawlLoop` body: check `MoreToCrawl`, check the page
budget, compute `amountToGet`, draw the batch with `GetLinks`, move every
drawn URI to crawled and count it in `totalSpidered`, then apply the round's
`AddToCrawl` calls. -/
def crawlStep (cfg : SpiderCfg ρ) (st : RunState) : StepRes :=
  if !st.links.MoreToCrawl then .halt
  else if cfg.hasMaxPages && decide (st.totalSpidered ≥ cfg.maxPages) then .halt
  else
    let temp := st.links.GetLinks (amountForRound cfg st)
    match moveAll st.links temp with
    | none => .panicked
    | some b₁ => .next ⟨roundAdds cfg b₁ temp, st.totalSpidered + temp.length⟩ temp

/-- `Spider.loadStartingURLS`: seed the store by `AddToCrawl` on every
starting URL. -/
def loadStartingURLS (urls : List String) : BasicLinkStore :=
  addAll ⟨[], []⟩ urls

/-- The frontier invariant: both lists are duplicate-free and no URL is in
both `toCrawl` (pending) and `crawled` (visited). -/
def Inv (b : BasicLinkStore) : Prop :=
  b.toCrawl.Nodup ∧ b.crawled.Nodup ∧ ∀ x ∈ b.toCrawl, x ∉ b.crawled

/-- Link-store states reachable from the empty store by the two mutating
operations (`GetLinks` and `MoreToCrawl` are pure reads and do not change
the state). -/
inductive Reachable : BasicLinkStore → Prop where
  | empty : Reachable ⟨[], []⟩
  | add (b : BasicLinkStore) (link : String) :
      Reachable b → Reachable (b.AddToCrawl link)
  | move (b b' : BasicLinkStore) (link : String) :
      Reachable b → b.MoveToCrawled link = some b' → Reachable b'

/-- Reflexive-transitive iteration of `crawlStep` through dispatching
rounds. -/
inductive Steps (cfg : SpiderCfg ρ) : RunState → RunState → Prop where
  | refl (st : RunState) : Steps cfg st st
  | step (st st' st'' : RunState) (temp : List String) :
      crawlStep cfg st = .next st' temp → Steps cfg st' st'' → Steps cfg st st''

/-- A configuration exercising the budget accounting: `MaxPages = 1`,
`MaxConcurrentRequests = 1` (so `hasMaxPages` is set by `validateSettings`),
no parse function, a getter that always fails. -/
def budgetCfg : SpiderCfg Unit :=
  { allowedDomains := [], disallowedPages := [], maxPages := 1,
    maxConcurrentRequests := 1, hasMaxPages := true, hasDisallowed := false,
    hasParse := false, parseURL := fun _ => .error "unsupported",
    getter := fun _ => .error (), parse := fun _ => [] }

/-- A configuration with an empty `AllowedDomains` slice and a parse oracle
that resolves `http://example.com/` the way `net/url.Parse` does (scheme
`http`, host `example.com`). -/
def emptyAllowedCfg : SpiderCfg Unit :=
  { allowedDomains := [], disallowedPages := [], maxPages := 0,
    maxConcurrentRequests := 1, hasMaxPages := false, hasDisallowed := false,
    hasParse := false,
    parseURL := fun s =>
      if s = "http://example.com/" then .ok ⟨"http", "example.com"⟩
      else .error "unsupported",
    getter := fun _ => .error (), parse := fun _ => [] }

/-- A configuration whose disallow list rejects every URL while the allowed
domains admit `x.com`, with a getter that always succeeds: a URL can pass
`verifyURL` yet match `DisallowedPages`. -/
def disallowAllCfg : SpiderCfg Unit :=
  { allowedDomains := ["x.com"], disallowedPages := [fun _ => true],
    maxPages := 0, maxConcurrentRequests := 1, hasMaxPages := false,
    hasDisallowed := true, hasParse := false,
    parseURL := fun s =>
      if s = "http://x.com/" then .ok ⟨"http", "x.com"⟩
      else .error "unsupported",
    getter := fun _ => .ok (), parse := fun _ => [] }

/-- A configuration with an unbounded budget and a getter that always
returns a transport error, used to exercise the fetch-error path. -/
def fetchErrCfg : SpiderCfg Unit :=
  { allowedDomains := [], disallowedPages := [], maxPages := 0,
    maxConcurrentRequests := 1, hasMaxPages := false, hasDisallowed := false,
    hasParse := false, parseURL := fun _ => .error "unsupported",
    getter := fun _ => .error (), parse := fun _ => [] }

/-- A run state with three seeded pending URLs and nothing dispatched. -/
def fetchErrStart : RunState :=
  ⟨⟨[], ["http://x/a", "http://x/b", "http://x/c"]⟩, 0⟩

/-! ### Behaviour of the `MoveToCrawled` delete loop on duplicate-free input -/

theorem getD_mem_of_lt {l : List String} {i : Nat} (h : i < l.length) :
    l.getD i "" ∈ l := by
  rw [List.getD_eq_getElem _ _ h]
  exact List.getElem_mem h

theorem moveStep_no_match {link : String} {i : Nat} {st : MoveState}
    (h : ¬ st.backing.getD i "" = link) : moveStep link i st = some st := by
  unfold moveStep
  rw [show (st.backing.getD i "" == link) = false from beq_eq_false_iff_ne.mpr h]
  rfl

theorem moveRun_nil (link : String) (st : MoveState) : moveRun link [] st = some st := rfl

theorem moveRun_cons (link : String) (i : Nat) (I : List Nat) (st : MoveState) :
    moveRun link (i :: I) st =
      match moveStep link i st with
      | none => none
      | some st' => moveRun link I st' := rfl

theorem moveRun_no_match {link : String} {I : List Nat} {st : MoveState}
    (h : ∀ i ∈ I, ¬ st.backing.getD i "" = link) : moveRun link I st = some st := by
  induction I with
  | nil => rfl
  | cons i rest ih =>
    rw [moveRun, moveStep_no_match (h i (by simp))]
    exact ih fun j hj => h j (by simp [hj])

theorem moveRun_append (link : String) (I₁ I₂ : List Nat) (st : MoveState) :
    moveRun link (I₁ ++ I₂) st =
      match moveRun link I₁ st with
      | none => none
      | some st' => moveRun link I₂ st' := by
  induction I₁ generalizing st with
  | nil => rfl
  | cons i rest ih =>
    simp only [List.cons_append, moveRun]
    cases moveStep link i st with
    | none => rfl
    | some st' => exact ih st'

theorem moveRun_congr_some {link : String} {I : List Nat} {st st' : MoveState}
    (h : moveRun link I st = some st') (I₂ : List Nat) :
    moveRun link (I ++ I₂) st = moveRun link I₂ st' := by
  rw [moveRun_append, h]

/-- Running the delete loop on a list with exactly one occurrence of `link`
removes that occurrence, shortens the slice by one, leaves the stale tail
element behind in the backing array, and sets `canContinue`. -/
theorem moveRun_single (link : String) (xs ys : List String)
    (hx : link ∉ xs) (hy : link ∉ ys) :
    moveRun link (List.range (xs ++ link :: ys).length)
        ⟨xs ++ link :: ys, (xs ++ link :: ys).length, false⟩
      = some ⟨(xs ++ ys) ++ (xs ++ link :: ys).drop (xs.length + ys.length),
              xs.length + ys.length, true⟩ := by
  have hlen : (xs ++ link :: ys).length = (xs.length + 1) + ys.length := by
    simp [List.length_append]
    omega
  have hsplit2 : xs ++ link :: ys = (xs ++ [link]) ++ ys := by simp
  have hseg1 : moveRun link (List.range xs.length)
      ⟨xs ++ link :: ys, (xs ++ link :: ys).length, false⟩
      = some ⟨xs ++ link :: ys, (xs ++ link :: ys).length, false⟩ := by
    apply moveRun_no_match
    intro i hi
    have him : i < xs.length := List.mem_range.mp hi
    show ¬ (xs ++ link :: ys).getD i "" = link
    rw [List.getD_append _ _ _ _ him]
    intro hcontra
    rw [← hcontra] at hx
    exact hx (getD_mem_of_lt him)
  have hstep : moveStep link xs.length ⟨xs ++ link :: ys, (xs ++ link :: ys).length, false⟩
      = some ⟨(xs ++ ys) ++ (xs ++ link :: ys).drop (xs.length + ys.length),
              xs.length + ys.length, true⟩ := by
    have hread : (xs ++ link :: ys).getD xs.length "" = link := by
      rw [List.getD_append_right _ _ _ _ (Nat.le_refl _)]
      simp
    unfold moveStep
    dsimp only
    rw [show ((xs ++ link :: ys).getD xs.length "" == link) = true
        from beq_iff_eq.mpr hread]
    have hle : xs.length + 1 ≤ (xs ++ link :: ys).length := by
      rw [hlen]; omega
    rw [if_pos rfl, if_pos hle]
    have h1 : (xs ++ link :: ys).length - 1 - xs.length = ys.length := by
      rw [hlen]; omega
    have h2 : (xs ++ link :: ys).length - 1 = xs.length + ys.length := by
      rw [hlen]; omega
    have htake : (xs ++ link :: ys).take xs.length = xs := List.take_left' rfl
    have hdrop1 : (xs ++ link :: ys).drop (xs.length + 1) = ys := by
      rw [hsplit2]
      exact List.drop_left' (by simp)
    rw [h1, h2, htake, hdrop1, List.take_length]
  have hseg3 : moveRun link ((List.range ys.length).map (xs.length + 1 + ·))
      ⟨(xs ++ ys) ++ (xs ++ link :: ys).drop (xs.length + ys.length),
        xs.length + ys.length, true⟩
      = some ⟨(xs ++ ys) ++ (xs ++ link :: ys).drop (xs.length + ys.length),
              xs.length + ys.length, true⟩ := by
    apply moveRun_no_match
    intro i hi
    simp only [List.mem_map, List.mem_range] at hi
    obtain ⟨j, hj, rfl⟩ := hi
    have hdropk : (xs ++ link :: ys).drop (xs.length + ys.length)
        = ys.drop (ys.length - 1) := by
      rw [hsplit2]
      have hidx : xs.length + ys.length = (xs ++ [link]).length + (ys.length - 1) := by
        simp
        omega
      rw [hidx, List.drop_append]
    show ¬ ((xs ++ ys) ++ (xs ++ link :: ys).drop (xs.length + ys.length)).getD
        (xs.length + 1 + j) "" = link
    have hgd : ((xs ++ ys) ++ (xs ++ link :: ys).drop (xs.length + ys.length)).getD
        (xs.length + 1 + j) "" ∈ ys := by
      rw [List.append_assoc,
        List.getD_append_right _ _ _ _ (by omega : xs.length ≤ xs.length + 1 + j)]
      have hidx2 : xs.length + 1 + j - xs.length = j + 1 := by omega
      rw [hidx2, hdropk]
      have hlt : j + 1 < (ys ++ ys.drop (ys.length - 1)).length := by
        simp [List.length_drop]
        omega
      have hmem := getD_mem_of_lt hlt
      rcases List.mem_append.mp hmem with h | h
      · exact h
      · exact List.drop_subset _ _ h
    intro hcontra
    rw [hcontra] at hgd
    exact hy hgd
  have h1m : moveRun link [xs.length]
      ⟨xs ++ link :: ys, (xs ++ link :: ys).length, false⟩
      = some ⟨(xs ++ ys) ++ (xs ++ link :: ys).drop (xs.length + ys.length),
              xs.length + ys.length, true⟩ := by
    rw [moveRun_cons, hstep]
    rfl
  have h12 : moveRun link (List.range xs.length ++ [xs.length])
      ⟨xs ++ link :: ys, (xs ++ link :: ys).length, false⟩
      = some ⟨(xs ++ ys) ++ (xs ++ link :: ys).drop (xs.length + ys.length),
              xs.length + ys.length, true⟩ := by
    rw [moveRun_congr_some hseg1, h1m]
  conv_lhs =>
    rw [show List.range (xs ++ link :: ys).length
        = List.range xs.length ++ [xs.length] ++ (List.range ys.length).map (xs.length + 1 + ·)
      from by rw [hlen, List.range_add, List.range_succ]]
  rw [moveRun_congr_some h12, hseg3]

/-- `MoveToCrawled` on a link absent from `toCrawl` leaves the store
unchanged (in particular it does not touch `crawled`). -/
theorem MoveToCrawled_of_not_mem {b : BasicLinkStore} {link : String}
    (h : link ∉ b.toCrawl) : b.MoveToCrawled link = some b := by
  unfold BasicLinkStore.MoveToCrawled
  rw [moveRun_no_match (fun i hi => ?_)]
  · simp
  · have him : i < b.toCrawl.length := List.mem_range.mp hi
    intro hcontra
    rw [← hcontra] at h
    exact h (getD_mem_of_lt him)

/-- `MoveToCrawled` on a link present in a duplicate-free `toCrawl` removes
it from `toCrawl` and appends it to `crawled`. -/
theorem MoveToCrawled_of_mem {b : BasicLinkStore} {link : String}
    (hnd : b.toCrawl.Nodup) (h : link ∈ b.toCrawl) :
    b.MoveToCrawled link = some ⟨b.crawled ++ [link], b.toCrawl.erase link⟩ := by
  obtain ⟨xs, ys, hsplit⟩ := List.append_of_mem h
  have hnd' : (xs ++ link :: ys).Nodup := hsplit ▸ hnd
  obtain ⟨-, hndr, hdisj⟩ := List.nodup_append.mp hnd'
  have hx : link ∉ xs := fun hlx => hdisj hlx (List.mem_cons_self _ _)
  have hy : link ∉ ys := (List.nodup_cons.mp hndr).1
  have herase : (xs ++ link :: ys).erase link = xs ++ ys := by
    rw [List.erase_append_right _ hx, List.erase_cons_head]
  unfold BasicLinkStore.MoveToCrawled
  rw [hsplit, moveRun_single link xs ys hx hy]
  have htake : ((xs ++ ys) ++ (xs ++ link :: ys).drop (xs.length + ys.length)).take
      (xs.length + ys.length) = xs ++ ys :=
    List.take_left' (by simp)
  dsimp only
  rw [htake, herase, if_pos rfl]

/-- `MoveToCrawled` on a duplicate-free `toCrawl` never panics: it erases
the link from `toCrawl` and appends it to `crawled` exactly when it was
pending. -/
theorem MoveToCrawled_total {b : BasicLinkStore} (h : b.toCrawl.Nodup) (link : String) :
    b.MoveToCrawled link =
      some ⟨if link ∈ b.toCrawl then b.crawled ++ [link] else b.crawled,
            b.toCrawl.erase link⟩ := by
  by_cases hm : link ∈ b.toCrawl
  · rw [MoveToCrawled_of_mem h hm, if_pos hm]
  · rw [MoveToCrawled_of_not_mem hm, if_neg hm, List.erase_of_not_mem hm]

/-! ### `GetLinks` and `AddToCrawl` -/

theorem getLinksLoop_sublist (amount counter : Int) (l : List String) :
    List.Sublist (getLinksLoop amount counter l) l := by
  induction l generalizing counter with
  | nil => simp [getLinksLoop]
  | cons x rest ih =>
    rw [getLinksLoop]
    by_cases h : counter > amount
    · simp [h]
    · rw [if_neg h]
      exact (ih (counter + 1)).cons₂ x

theorem GetLinks_sublist (b : BasicLinkStore) (amount : Int) :
    List.Sublist (b.GetLinks amount) b.toCrawl :=
  getLinksLoop_sublist amount 0 b.toCrawl

theorem GetLinks_mem {b : BasicLinkStore} {amount : Int} {u : String}
    (h : u ∈ b.GetLinks amount) : u ∈ b.toCrawl :=
  (GetLinks_sublist b amount).mem h

theorem GetLinks_nodup {b : BasicLinkStore} (h : b.toCrawl.Nodup) (amount : Int) :
    (b.GetLinks amount).Nodup :=
  h.sublist (GetLinks_sublist b amount)

theorem any_beq_mem {l : List String} {a : String} :
    (l.any fun x => a == x) = true ↔ a ∈ l := by
  rw [List.any_eq_true]
  constructor
  · rintro ⟨x, hx, hbeq⟩
    obtain rfl := beq_iff_eq.mp hbeq
    exact hx
  · intro h
    exact ⟨a, h, beq_self_eq_true a⟩

/-- `AddToCrawl` appends the link iff it occurs in neither list, and is a
strict no-op otherwise. -/
theorem AddToCrawl_eq (b : BasicLinkStore) (link : String) :
    b.AddToCrawl link =
      if link ∈ b.toCrawl ∨ link ∈ b.crawled then b
      else { b with toCrawl := b.toCrawl ++ [link] } := by
  unfold BasicLinkStore.AddToCrawl
  by_cases h1 : link ∈ b.toCrawl
  · rw [if_pos (any_beq_mem.mpr h1), if_pos (Or.inl h1)]
  · rw [if_neg (fun hc => h1 (any_beq_mem.mp hc))]
    by_cases h2 : link ∈ b.crawled
    · rw [if_pos (any_beq_mem.mpr h2), if_pos (Or.inr h2)]
    · rw [if_neg (fun hc => h2 (any_beq_mem.mp hc)),
        if_neg (fun hc => hc.elim h1 h2)]

theorem AddToCrawl_crawled (b : BasicLinkStore) (link : String) :
    (b.AddToCrawl link).crawled = b.crawled := by
  rw [AddToCrawl_eq]
  split <;> rfl

theorem AddToCrawl_inv {b : BasicLinkStore} (h : Inv b) (link : String) :
    Inv (b.AddToCrawl link) := by
  rw [AddToCrawl_eq]
  split
  · exact h
  · next hc =>
    push_neg at hc
    obtain ⟨h1, h2, h3⟩ := h
    refine ⟨?_, h2, ?_⟩
    · rw [List.nodup_append]
      exact ⟨h1, List.nodup_singleton link,
        fun x hx hl => hc.1 ((List.mem_singleton.mp hl) ▸ hx)⟩
    · intro x hx
      rcases List.mem_append.mp hx with hx | hx
      · exact h3 x hx
      · exact (List.mem_singleton.mp hx) ▸ hc.2

theorem MoveToCrawled_inv {b : BasicLinkStore} (h : Inv b) (link : String) :
    ∃ b', b.MoveToCrawled link = some b' ∧ Inv b' ∧
      b'.crawled = (if link ∈ b.toCrawl then b.crawled ++ [link] else b.crawled) ∧
      b'.toCrawl = b.toCrawl.erase link := by
  obtain ⟨h1, h2, h3⟩ := h
  refine ⟨_, MoveToCrawled_total h1 link, ⟨h1.erase link, ?_, ?_⟩, rfl, rfl⟩
  · by_cases hm : link ∈ b.toCrawl
    · rw [if_pos hm, List.nodup_append]
      exact ⟨h2, List.nodup_singleton link,
        fun x hx hl => h3 link hm ((List.mem_singleton.mp hl) ▸ hx)⟩
    · rw [if_neg hm]
      exact h2
  · intro x hx
    have hx' := (h1.mem_erase_iff).mp hx
    by_cases hm : link ∈ b.toCrawl
    · rw [if_pos hm]
      intro hcon
      rcases List.mem_append.mp hcon with hc | hc
      · exact h3 x hx'.2 hc
      · exact hx'.1 (List.mem_singleton.mp hc)
    · rw [if_neg hm]
      exact h3 x hx'.2

/-- Every state reachable from the empty store by the mutating operations
satisfies the frontier invariant. -/
theorem reachable_inv {b : BasicLinkStore} (h : Reachable b) : Inv b := by
  induction h with
  | empty => exact ⟨List.nodup_nil, List.nodup_nil, by simp⟩
  | add b link _ ih => exact AddToCrawl_inv ih link
  | move b b' link _ hm ih =>
    obtain ⟨b'', hm', hinv, -, -⟩ := MoveToCrawled_inv ih link
    rw [hm'] at hm
    exact (Option.some.injEq _ _ ▸ hm : b'' = b') ▸ hinv

/-! ### One crawl round -/

theorem moveAll_cons (b : BasicLinkStore) (u : String) (rest : List String) :
    moveAll b (u :: rest) =
      match b.MoveToCrawled u with
      | none => none
      | some b' => moveAll b' rest := rfl

/-- Moving a duplicate-free batch of pending links never panics, appends
the batch to `crawled` in order, preserves the invariant and only ever
removes from `toCrawl`. -/
theorem moveAll_spec {b : BasicLinkStore} {temp : List String} (h : Inv b)
    (hnd : temp.Nodup) (hsub : ∀ u ∈ temp, u ∈ b.toCrawl) :
    ∃ b', moveAll b temp = some b' ∧ Inv b' ∧
      b'.crawled = b.crawled ++ temp ∧
      (∀ x ∈ b'.toCrawl, x ∈ b.toCrawl) := by
  induction temp generalizing b with
  | nil => exact ⟨b, rfl, h, by simp, fun x hx => hx⟩
  | cons u rest ih =>
    have hu : u ∈ b.toCrawl := hsub u (by simp)
    obtain ⟨b₁, hm, hinv₁, hcr₁, htc₁⟩ := MoveToCrawled_inv h u
    obtain ⟨hndu, hndrest⟩ := List.nodup_cons.mp hnd
    have hsub' : ∀ v ∈ rest, v ∈ b₁.toCrawl := by
      intro v hv
      rw [htc₁, (h.1).mem_erase_iff]
      exact ⟨fun hvu => hndu (hvu ▸ hv), hsub v (by simp [hv])⟩
    obtain ⟨b', hms, hinv', hcr', htc'⟩ := ih hinv₁ hndrest hsub'
    refine ⟨b', ?_, hinv', ?_, ?_⟩
    · rw [moveAll_cons, hm]
      exact hms
    · rw [hcr', hcr₁, if_pos hu]
      simp
    · intro x hx
      have hx₁ := htc' x hx
      rw [htc₁] at hx₁
      exact ((h.1).mem_erase_iff.mp hx₁).2

theorem addAll_crawled (b : BasicLinkStore) (ls : List String) :
    (addAll b ls).crawled = b.crawled := by
  induction ls generalizing b with
  | nil => rfl
  | cons l rest ih =>
    show (addAll (b.AddToCrawl l) rest).crawled = b.crawled
    rw [ih, AddToCrawl_crawled]

theorem addAll_inv {b : BasicLinkStore} (h : Inv b) (ls : List String) :
    Inv (addAll b ls) := by
  induction ls generalizing b with
  | nil => exact h
  | cons l rest ih => exact ih (AddToCrawl_inv h l)

theorem roundAdds_crawled (cfg : SpiderCfg ρ) (b : BasicLinkStore) (temp : List String) :
    (roundAdds cfg b temp).crawled = b.crawled := by
  induction temp generalizing b with
  | nil => rfl
  | cons u rest ih =>
    show (roundAdds cfg (addAll b (tracedAdds (getPageTrace cfg u))) rest).crawled = b.crawled
    rw [ih, addAll_crawled]

theorem roundAdds_inv (cfg : SpiderCfg ρ) {b : BasicLinkStore} (h : Inv b)
    (temp : List String) : Inv (roundAdds cfg b temp) := by
  induction temp generalizing b with
  | nil => exact h
  | cons u rest ih => exact ih (addAll_inv h _)

/-- When the loop guard and the budget guard both pass, the round completes
(no panic from an invariant store): the batch is dispatched, appended to
`crawled`, and counted in full into `totalSpidered`. -/
theorem crawlStep_run {cfg : SpiderCfg ρ} {st : RunState} (h : Inv st.links)
    (hmore : st.links.MoreToCrawl = true)
    (hbudget : (cfg.hasMaxPages && decide (st.totalSpidered ≥ cfg.maxPages)) = false) :
    ∃ b', moveAll st.links (st.links.GetLinks (amountForRound cfg st)) = some b' ∧
      crawlStep cfg st
        = .next ⟨roundAdds cfg b' (st.links.GetLinks (amountForRound cfg st)),
                 st.totalSpidered + (st.links.GetLinks (amountForRound cfg st)).length⟩
                (st.links.GetLinks (amountForRound cfg st)) ∧
      Inv b' ∧
      b'.crawled = st.links.crawled ++ st.links.GetLinks (amountForRound cfg st) := by
  obtain ⟨b', hma, hinv', hcr', -⟩ :=
    moveAll_spec h (GetLinks_nodup h.1 _) (fun u hu => GetLinks_mem hu)
  refine ⟨b', hma, ?_, hinv', hcr'⟩
  unfold crawlStep
  rw [hmore]
  rw [if_neg (by simp), if_neg (by rw [hbudget]; simp)]
  dsimp only
  rw [hma]

/-- Any `.next` outcome of `crawlStep` from an invariant state preserves
the invariant, only grows `crawled`, and dispatches only pending links. -/
theorem crawlStep_next_mono {cfg : SpiderCfg ρ} {st st' : RunState}
    {temp : List String} (h : Inv st.links)
    (hstep : crawlStep cfg st = .next st' temp) :
    Inv st'.links ∧ (∀ x ∈ st.links.crawled, x ∈ st'.links.crawled) ∧
      (∀ x ∈ temp, x ∈ st.links.toCrawl) := by
  unfold crawlStep at hstep
  by_cases h1 : (!st.links.MoreToCrawl) = true
  · rw [if_pos h1] at hstep
    cases hstep
  · rw [if_neg h1] at hstep
    by_cases h2 : (cfg.hasMaxPages && decide (st.totalSpidered ≥ cfg.maxPages)) = true
    · rw [if_pos h2] at hstep
      cases hstep
    · rw [if_neg h2] at hstep
      dsimp only at hstep
      obtain ⟨b', hma, hinv', hcr', -⟩ :=
        moveAll_spec h (GetLinks_nodup h.1 _) (fun u hu => GetLinks_mem hu)
      rw [hma] at hstep
      cases hstep
      refine ⟨roundAdds_inv cfg hinv' _, ?_, fun x hx => GetLinks_mem hx⟩
      intro x hx
      show x ∈ (roundAdds cfg b' _).crawled
      rw [roundAdds_crawled, hcr']
      exact List.mem_append.mpr (Or.inl hx)

/-- Once a URL is in `crawled`, every later state of the run keeps it in
`crawled` and keeps the invariant. -/
theorem steps_crawled_persistent {cfg : SpiderCfg ρ} {st st' : RunState} {a : String}
    (hs : Steps cfg st st') :
    Inv st.links → a ∈ st.links.crawled → Inv st'.links ∧ a ∈ st'.links.crawled := by
  induction hs with
  | refl u => exact fun h ha => ⟨h, ha⟩
  | step u u' u'' temp hstep hrest ih =>
    intro h ha
    obtain ⟨hinv', hmono, -⟩ := crawlStep_next_mono h hstep
    exact ih hinv' (hmono a ha)

/-! ### The `getPage` task body -/

theorem admitLink_true_iff {cfg : SpiderCfg ρ} {l : String} :
    admitLink cfg l = true ↔
      verifyURL cfg l = .ok () ∧ isPageDisallowed cfg l = .ok () := by
  unfold admitLink
  cases hv : verifyURL cfg l with
  | error e => simp [hv]
  | ok u =>
    cases u
    cases hd : isPageDisallowed cfg l with
    | error e => simp [hd]
    | ok u =>
      cases u
      simp [hd]

theorem tracedAdds_of_adds (ls : List String) :
    tracedAdds (ls.map CrawlEv.addToCrawl ++ [CrawlEv.wgDone]) = ls := by
  induction ls with
  | nil => rfl
  | cons l rest ih =>
    simp only [List.map_cons, List.cons_append, tracedAdds, List.filterMap_cons]
    simp only [tracedAdds] at ih
    rw [ih]

theorem doneCount_of_adds (ls : List String) :
    doneCount (ls.map CrawlEv.addToCrawl ++ [CrawlEv.wgDone]) = 1 := by
  induction ls with
  | nil => rfl
  | cons l rest ih =>
    simp only [List.map_cons, List.cons_append, doneCount, List.countP_cons]
    simp only [doneCount] at ih
    rw [ih]
    simp

/-! ### Claims -/

/-- C1: the claimed budget bound `totalSpidered ≤ MaxPages` is violated by
the code.  With `MaxPages = 1` and `MaxConcurrentRequests = 1`, two seeded
URLs are both dispatched in the first round — `crawlLoop` asks `GetLinks`
for `1` link but `GetLinks` returns `2` (its loop stops only once
`counter > amount`), so `totalSpidered` reaches `2 > MaxPages = 1`. -/
theorem budget_bound_violated_eval :
    crawlStep budgetCfg ⟨loadStartingURLS ["http://x/a", "http://x/b"], 0⟩
      = .next ⟨⟨["http://x/a", "http://x/b"], []⟩, 2⟩ ["http://x/a", "http://x/b"]
    ∧ budgetCfg.hasMaxPages = true
    ∧ budgetCfg.maxPages = 1
    ∧ budgetCfg.maxPages < 2 :=
  ⟨rfl, rfl, rfl, by decide⟩

/-- C2: the claim that `GetLinks n` returns at most `n` URLs fails: on a
store with two pending links, `GetLinks 1` returns both of them, because
the loop breaks only once `counter > amount`.  (The FIFO order and the
non-destructive read are as claimed; the bound is off by one.) -/
theorem getLinks_overdraw_eval :
    BasicLinkStore.GetLinks ⟨[], ["http://x/a", "http://x/b"]⟩ 1
      = ["http://x/a", "http://x/b"]
    ∧ (1 : Int) < (["http://x/a", "http://x/b"] : List String).length :=
  ⟨rfl, by decide⟩

/-- C3: the claimed allow-all semantics of an empty allowed-domain set
fails: `verifyURL` scans `AllowedDomains` for a host match unconditionally,
so with an empty set `shouldContinue` stays `false` and every URL — here a
parseable absolute one — is rejected. -/
theorem verifyURL_empty_allowed_rejects_eval :
    emptyAllowedCfg.parseURL "http://example.com/" = .ok ⟨"http", "example.com"⟩
    ∧ URL.IsAbs ⟨"http", "example.com"⟩ = true
    ∧ emptyAllowedCfg.allowedDomains = []
    ∧ verifyURL emptyAllowedCfg "http://example.com/"
        = .error "http://example.com/ not listed as allowed in spider settings." :=
  ⟨rfl, rfl, rfl, rfl⟩

/-- C4 (counterexample): a dispatched URL that passes `verifyURL` but
matches `DisallowedPages` is still fetched — `getPage` does not run
`isPageDisallowed` before the initial fetch, contradicting the claim that
both admission checks guard the fetch. -/
theorem getPage_fetches_disallowed :
    tracedFetch (getPageTrace disallowAllCfg "http://x.com/") = true
    ∧ isPageDisallowed disallowAllCfg "http://x.com/"
        = .error "http://x.com/ is disallowed." :=
  ⟨rfl, rfl⟩

/-- C4 (amended): before the initial fetch of a dispatched URL only
`isFetchable` (`verifyURL`) is run; both `verifyURL` and `isPageDisallowed`
are run on every freshly parsed candidate link before it is handed to
`AddToCrawl`. -/
theorem getPage_admission_guards (cfg : SpiderCfg ρ) (uri : String) :
    (tracedFetch (getPageTrace cfg uri) = true → verifyURL cfg uri = .ok ())
    ∧ ∀ l ∈ tracedAdds (getPageTrace cfg uri),
        verifyURL cfg l = .ok () ∧ isPageDisallowed cfg l = .ok () := by
  unfold getPageTrace
  cases hv : verifyURL cfg uri with
  | error e =>
    refine ⟨fun hf => ?_, fun l hl => ?_⟩
    · cases hf
    · cases hl
  | ok u =>
    cases u
    cases hg : cfg.getter uri with
    | error e => exact ⟨fun _ => rfl, fun l hl => by cases hl⟩
    | ok resp =>
      dsimp only
      by_cases hp : cfg.hasParse = true
      · rw [if_pos hp]
        refine ⟨fun _ => rfl, fun l hl => ?_⟩
        rw [show tracedAdds (CrawlEv.fetchStart uri ::
              (((cfg.parse resp).filter (admitLink cfg)).map CrawlEv.addToCrawl
                ++ [CrawlEv.wgDone]))
            = tracedAdds (((cfg.parse resp).filter (admitLink cfg)).map CrawlEv.addToCrawl
                ++ [CrawlEv.wgDone]) from rfl,
          tracedAdds_of_adds] at hl
        exact admitLink_true_iff.mp (List.mem_filter.mp hl).2
      · rw [if_neg hp]
        exact ⟨fun _ => rfl, fun l hl => by cases hl⟩

/-- C4 (witness): a concrete invocation in which the fetch happens, so the
amended guard yields a concrete `verifyURL` success. -/
theorem getPage_admission_guards_w :
    verifyURL disallowAllCfg "http://x.com/" = .ok () :=
  (getPage_admission_guards disallowAllCfg "http://x.com/").1 rfl

/-- C5 (counterexample): `MoveToCrawled` on a URL that is not pending is a
full no-op — the URL is NOT inserted into `crawled`, contradicting the
claim that it is visited afterwards even if it was not pending. -/
theorem markVisited_absent_no_insert :
    BasicLinkStore.MoveToCrawled ⟨[], []⟩ "http://x/a" = some ⟨[], []⟩
    ∧ "http://x/a" ∉ (⟨[], []⟩ : BasicLinkStore).crawled :=
  ⟨rfl, by simp⟩

/-- C5 (amended): on an invariant store, `MoveToCrawled u` removes `u` from
`toCrawl` (no-op on `toCrawl` if absent), inserts `u` into `crawled` iff
`u` was pending (full no-op otherwise), and a second call with the same `u`
leaves the store unchanged. -/
theorem markVisited_spec {b : BasicLinkStore} (h : Inv b) (u : String) :
    b.MoveToCrawled u
      = some ⟨if u ∈ b.toCrawl then b.crawled ++ [u] else b.crawled, b.toCrawl.erase u⟩
    ∧ BasicLinkStore.MoveToCrawled
        ⟨if u ∈ b.toCrawl then b.crawled ++ [u] else b.crawled, b.toCrawl.erase u⟩ u
      = some ⟨if u ∈ b.toCrawl then b.crawled ++ [u] else b.crawled, b.toCrawl.erase u⟩ := by
  refine ⟨MoveToCrawled_total h.1 u, ?_⟩
  apply MoveToCrawled_of_not_mem
  show u ∉ b.toCrawl.erase u
  exact h.1.not_mem_erase

/-- C5 (witness): the amended statement evaluated on a store with one
pending URL. -/
theorem markVisited_spec_w :
    BasicLinkStore.MoveToCrawled ⟨[], ["http://x/a"]⟩ "http://x/a"
      = some ⟨["http://x/a"], []⟩
    ∧ BasicLinkStore.MoveToCrawled ⟨["http://x/a"], []⟩ "http://x/a"
      = some ⟨["http://x/a"], []⟩ :=
  markVisited_spec (b := ⟨[], ["http://x/a"]⟩) ⟨by simp, by simp, by simp⟩ "http://x/a"

/-- C6: after any sequence of the mutating store operations starting from
the empty store, `toCrawl` (pending) and `crawled` (visited) are disjoint.
(`GetLinks` and `MoreToCrawl` are pure reads of the store.) -/
theorem pending_visited_disjoint {b : BasicLinkStore} (h : Reachable b) :
    ∀ x ∈ b.toCrawl, x ∉ b.crawled :=
  (reachable_inv h).2.2

/-- C6 (witness): in a store reached by two adds and one move, the pending
URL is not in the visited list. -/
theorem pending_visited_disjoint_w :
    "http://x/b" ∉ (⟨["http://x/a"], ["http://x/b"]⟩ : BasicLinkStore).crawled :=
  pending_visited_disjoint (b := ⟨["http://x/a"], ["http://x/b"]⟩)
    (.move _ _ "http://x/a" (.add _ "http://x/b" (.add _ "http://x/a" .empty)) rfl)
    "http://x/b" (by simp)

/-- C7: `AddToCrawl u` appends `u` to `toCrawl` iff `u` is in neither
`toCrawl` nor `crawled`; when `u` is in either list the entire store is
left unchanged. -/
theorem add_dedup_spec (b : BasicLinkStore) (u : String) :
    b.AddToCrawl u =
      if u ∈ b.toCrawl ∨ u ∈ b.crawled then b
      else { b with toCrawl := b.toCrawl ++ [u] } :=
  AddToCrawl_eq b u

/-- C9: every `getPage` invocation signals `wg.Done` exactly once, on every
control path — admission failure, fetch error and success alike — because
the signal is issued by a `defer` registered before any return. -/
theorem getPage_done_once (cfg : SpiderCfg ρ) (uri : String) :
    doneCount (getPageTrace cfg uri) = 1 := by
  unfold getPageTrace
  cases hv : verifyURL cfg uri with
  | error e => rfl
  | ok u =>
    cases cfg.getter uri with
    | error e => rfl
    | ok resp =>
      dsimp only
      by_cases hp : cfg.hasParse = true
      · rw [if_pos hp]
        have h1 := doneCount_of_adds ((cfg.parse resp).filter (admitLink cfg))
        simp only [doneCount, List.countP_cons] at h1 ⊢
        rw [h1]
        simp
      · rw [if_neg hp]
        rfl

/-- C10: after any sequence of the mutating store operations starting from
the empty store, neither `toCrawl` nor `crawled` contains duplicates. -/
theorem store_lists_nodup {b : BasicLinkStore} (h : Reachable b) :
    b.toCrawl.Nodup ∧ b.crawled.Nodup :=
  ⟨(reachable_inv h).1, (reachable_inv h).2.1⟩

/-- C10 (witness): duplicate-freedom of a store reached by three adds
(one a duplicate) and one move. -/
theorem store_lists_nodup_w :
    (⟨["http://x/a"], ["http://x/b"]⟩ : BasicLinkStore).toCrawl.Nodup
    ∧ (⟨["http://x/a"], ["http://x/b"]⟩ : BasicLinkStore).crawled.Nodup :=
  store_lists_nodup
    (.move _ _ "http://x/a"
      (.add _ "http://x/a" (.add _ "http://x/b" (.add _ "http://x/a" .empty))) rfl)

/-- C8: a dispatched URL `a` whose fetch errors still completes its round
(no panic), sits in `crawled` afterwards with its budget slot consumed in
`totalSpidered`, and is never dispatched again in any later round of the
run — the `AddToCrawl` dedup rule prevents its reintroduction even if it
is re-parsed later. -/
theorem fetch_error_slot_consumed (cfg : SpiderCfg ρ) (st : RunState) (a : String)
    (hInv : Inv st.links)
    (hmore : st.links.MoreToCrawl = true)
    (hbudget : (cfg.hasMaxPages && decide (st.totalSpidered ≥ cfg.maxPages)) = false)
    (ha : a ∈ st.links.GetLinks (amountForRound cfg st))
    (_hfetch : cfg.getter a = .error ()) :
    ∃ st', crawlStep cfg st = .next st' (st.links.GetLinks (amountForRound cfg st))
      ∧ a ∈ st'.links.crawled
      ∧ st'.totalSpidered
          = st.totalSpidered + (st.links.GetLinks (amountForRound cfg st)).length
      ∧ ∀ st₂ st₃ temp₂, Steps cfg st' st₂ →
          crawlStep cfg st₂ = .next st₃ temp₂ → a ∉ temp₂ := by
  obtain ⟨b', hma, hstep, hinvb', hcr'⟩ := crawlStep_run hInv hmore hbudget
  have hacr : a ∈ (roundAdds cfg b' (st.links.GetLinks (amountForRound cfg st))).crawled := by
    rw [roundAdds_crawled, hcr']
    exact List.mem_append.mpr (Or.inr ha)
  have hinv1 : Inv (roundAdds cfg b' (st.links.GetLinks (amountForRound cfg st))) :=
    roundAdds_inv cfg hinvb' _
  refine ⟨_, hstep, hacr, rfl, ?_⟩
  intro st₂ st₃ temp₂ hs hstep₂ hmem
  obtain ⟨hinv₂, hacr₂⟩ := steps_crawled_persistent hs hinv1 hacr
  obtain ⟨-, -, htemp⟩ := crawlStep_next_mono hinv₂ hstep₂
  exact (hinv₂.2.2 a (htemp a hmem)) hacr₂

/-- C8 (witness): a concrete two-round run — three seeds, every fetch
errors; seed `a` is dispatched in round one, counted, kept in `crawled`,
and absent from every later round's batch. -/
theorem fetch_error_slot_consumed_w :
    ∃ st', crawlStep fetchErrCfg fetchErrStart
        = .next st' (fetchErrStart.links.GetLinks (amountForRound fetchErrCfg fetchErrStart))
      ∧ "http://x/a" ∈ st'.links.crawled
      ∧ st'.totalSpidered = fetchErrStart.totalSpidered
          + (fetchErrStart.links.GetLinks (amountForRound fetchErrCfg fetchErrStart)).length
      ∧ ∀ st₂ st₃ temp₂, Steps fetchErrCfg st' st₂ →
          crawlStep fetchErrCfg st₂ = .next st₃ temp₂ → "http://x/a" ∉ temp₂ :=
  fetch_error_slot_consumed fetchErrCfg fetchErrStart "http://x/a"
    ⟨by decide, by decide, by decide⟩ rfl rfl (by decide) rfl

end Goatscrape
